import Mathlib

/-!
Shallow embedding of the core of `validator_progression.py`: the temporal
event model (`MusicEvent`), the pitch display formatter (`midi_to_french`),
the sustain inference function (`should_note_be_held`), the same-onset
event merger (the merge loop in `main`, rendered as `mergeEvents`), and the
streaming matcher state machine (the key-down / key-up / jump handlers of
the main loop, rendered as `keyDown`, `keyUp`, `jump`).

Python floats are modelled as exact rationals (`ℚ`); the float tolerance
`1e-9` and the chord window `0.5` become the exact rationals `tol` and
`CHORD_WINDOW`.  Python sets become `Finset ℕ`.
-/

/-- Source: `FRENCH_NOTES` list at the top of `validator_progression.py`. -/
def FRENCH_NOTES : List String :=
  ["Do", "Do#", "Ré", "Ré#", "Mi", "Fa", "Fa#", "Sol", "Sol#", "La", "La#", "Si"]

/-- Note-name component of `midi_to_french`: `FRENCH_NOTES[pitch % 12]`. -/
def frenchName (pitch : Nat) : String := FRENCH_NOTES.getD (pitch % 12) ""

/-- Octave component of `midi_to_french`: `pitch // 12 - 1` (Python floor division). -/
def frenchOctave (pitch : Nat) : Int := (pitch : Int) / 12 - 1

/-- Source: `midi_to_french`, returning `f"{name}{octave}"`. -/
def midi_to_french (pitch : Nat) : String :=
  frenchName pitch ++ toString (frenchOctave pitch)

/-- Event kind tag: the source stores the strings `'note'` / `'chord'`. -/
inductive EventType where
  | note
  | chord
deriving DecidableEq, Repr

/-- Source: class `MusicEvent` (fields `type`, `pitches`, `duration`, `offset`, `measure`). -/
structure MusicEvent where
  type : EventType
  pitches : List Nat
  duration : ℚ
  offset : ℚ
  measure : Int
deriving DecidableEq, Repr

/-- Default event used for out-of-range list reads (Python would raise `IndexError`;
all theorems guard indices so the default is never observable). -/
def dfltEvent : MusicEvent := ⟨EventType.note, [], 0, 0, 0⟩

/-- The float tolerance `1e-9` used by the merge loop and `should_note_be_held`. -/
def tol : ℚ := 1 / 1000000000

/-- Source: `CHORD_WINDOW = 0.5`. -/
def CHORD_WINDOW : ℚ := 1 / 2

/-- Source: the backward scan in `should_note_be_held`:
`for i in range(current_idx - 1, -1, -1): if pitch in events[i].pitches: ... break`.
`findLastOcc events pitch n` scans indices `n-1, n-2, ..., 0` and returns the
first (largest) index whose event contains `pitch`. -/
def findLastOcc (events : List MusicEvent) (pitch : Nat) : Nat → Option Nat
  | 0 => none
  | i + 1 =>
    if pitch ∈ (events.getD i dfltEvent).pitches then some i
    else findLastOcc events pitch i

/-- Source: `should_note_be_held(pitch, current_idx)`. -/
def should_note_be_held (events : List MusicEvent) (pitch : Nat) (current_idx : Nat) : Bool :=
  match findLastOcc events pitch current_idx with
  | none => false
  | some i =>
    let lastEvent := events.getD i dfltEvent
    if current_idx < events.length then
      let currentEvent := events.getD current_idx dfltEvent
      let current_offset := currentEvent.offset
      let note_end_offset := lastEvent.offset + lastEvent.duration
      let last_offset := lastEvent.offset
      if |last_offset - current_offset| < tol then false
      else decide (note_end_offset > current_offset + tol)
    else false

/-- The comparison `should_note_be_held` performs between the most recent prior
occurrence of a pitch and the current event (lines 63-71 of the source):
no obligation on simultaneous onset, otherwise obligation iff the prior end
extends strictly past the current onset plus the tolerance. -/
def holdDecision (lastEvent currentEvent : MusicEvent) : Bool :=
  if |lastEvent.offset - currentEvent.offset| < tol then false
  else decide (lastEvent.offset + lastEvent.duration > currentEvent.offset + tol)

/-- Source: `check_event_completed(event)`; `pressed` models the global
`currently_pressed` set. -/
def check_event_completed (pressed : Finset Nat) (event : MusicEvent) : Bool :=
  match event.type with
  | EventType.note => decide (event.pitches.getD 0 0 ∈ pressed)
  | EventType.chord => event.pitches.all (fun p => decide (p ∈ pressed))

/-- Source: the `pitch_to_max_duration` dictionary of the merge loop, viewed
per pitch: fold over the run, updating the entry for `p` with each event that
contains `p` (first occurrence records the duration, later ones take the max). -/
def pitchMaxDurFrom (p : Nat) : Option ℚ → List MusicEvent → Option ℚ
  | acc, [] => acc
  | acc, e :: run =>
    pitchMaxDurFrom p
      (if p ∈ e.pitches then
        (match acc with
         | none => some e.duration
         | some d => some (max d e.duration))
       else acc) run

/-- Value of `pitch_to_max_duration[p]` after processing `run` (none = key absent). -/
def pitchMaxDur (run : List MusicEvent) (p : Nat) : Option ℚ := pitchMaxDurFrom p none run

/-- Source: `max_duration = max(pitch_to_max_duration[p] for p in event_pitches)`
(the generator is non-empty whenever this is evaluated; absent keys default to 0). -/
def maxDurOf (pmd : Nat → Option ℚ) : List Nat → ℚ
  | [] => 0
  | p :: ps => (ps.map (fun q => (pmd q).getD 0)).foldl max ((pmd p).getD 0)

/-- Source: the re-emission loop of the merge (`for event in same_offset_events`,
filtering out `processed_pitches`, emitting a note or chord with the maximal
duration, then extending `processed_pitches`).  The repeated filter expression
is the Python local `event_pitches`. -/
def emitRun (pmd : Nat → Option ℚ) : List MusicEvent → List Nat → List MusicEvent
  | [], _ => []
  | e :: rest, processed =>
    if e.pitches.filter (fun p => decide (p ∉ processed)) = [] then
      emitRun pmd rest processed
    else
      MusicEvent.mk
        (if (e.pitches.filter (fun p => decide (p ∉ processed))).length = 1
          then EventType.note else EventType.chord)
        (e.pitches.filter (fun p => decide (p ∉ processed)))
        (maxDurOf pmd (e.pitches.filter (fun p => decide (p ∉ processed))))
        e.offset e.measure
      :: emitRun pmd rest (processed ++ e.pitches.filter (fun p => decide (p ∉ processed)))

/-- Fuel-indexed form of the outer merge loop; `fuel` bounds the number of runs,
so the recursion is structural.  `mergeEvents` supplies enough fuel.  The run
is the head event together with the following events whose offsets are within
`tol` of the head's offset (`same_offset_events` in the source). -/
def mergeGo : Nat → List MusicEvent → List MusicEvent
  | _, [] => []
  | 0, _ :: _ => []
  | fuel + 1, e :: rest =>
    emitRun (pitchMaxDur (e :: rest.takeWhile fun x => decide (|x.offset - e.offset| < tol)))
      (e :: rest.takeWhile fun x => decide (|x.offset - e.offset| < tol)) []
      ++ mergeGo fuel (rest.dropWhile fun x => decide (|x.offset - e.offset| < tol))

/-- Source: the merge step of `main` (lines 160-202): partition the sorted
event list into runs of offsets within `tol` of the run head, and re-emit
each run through `emitRun` with the per-pitch maximal durations. -/
def mergeEvents (events : List MusicEvent) : List MusicEvent :=
  mergeGo events.length events

/-- Matcher state: the globals `current_event_idx`, `currently_pressed`,
`pending_chord_notes`, `chord_start_time` of the source. -/
structure MatcherState where
  cursor : Nat
  pressed : Finset Nat
  pending : Finset Nat
  chordStart : Option ℚ
deriving DecidableEq

/-- Messages the main loop prints, modelled as an event stream. -/
inductive Msg where
  | unexpected (pitch : Nat)
  | ok (pitch : Nat)
  | sustainWarning (pitches : List Nat)
  | validated (idx : Nat)
  | chordTooSlow
  | jumped (measure : Int)
  | measureNotFound (measure : Int)
deriving DecidableEq, Repr

/-- Source: the `checked_pitches` set of the missing-held-notes scan: keep the
first occurrence of each pitch in iteration order. -/
def firstDedup : List Nat → List Nat → List Nat
  | [], _ => []
  | p :: ps, seen =>
    if p ∈ seen then firstDedup ps seen
    else p :: firstDedup ps (p :: seen)

/-- Source: the `missing_held_notes` computation of the key-down handler
(lines 310-322): every distinct pitch of an event strictly before the cursor,
in first-occurrence order, that should be held but is not pressed. -/
def missingHeld (events : List MusicEvent) (cursor : Nat) (pressed : Finset Nat) : List Nat :=
  (firstDedup ((events.take cursor).flatMap MusicEvent.pitches) []).filter
    (fun p => should_note_be_held events p cursor && decide (p ∉ pressed))

/-- Source: the `note_on` (velocity > 0) branch of the main loop
(lines 283-359).  `now` models `time.time()` at this message. -/
def keyDown (events : List MusicEvent) (now : ℚ) (pitch : Nat) (s : MatcherState) :
    MatcherState × List Msg :=
  if s.cursor < events.length then
    let cur := events.getD s.cursor dfltEvent
    if pitch ∉ cur.pitches then (s, [Msg.unexpected pitch])
    else
      let pressed' := insert pitch s.pressed
      let chordStart' :=
        if cur.type = EventType.chord then
          match s.chordStart with
          | none => some now
          | some t => some t
        else s.chordStart
      let pending' :=
        if cur.type = EventType.chord then
          match s.chordStart with
          | none => cur.pitches.toFinset \ {pitch}
          | some _ => s.pending.erase pitch
        else s.pending
      if check_event_completed pressed' cur then
        let missing := missingHeld events s.cursor pressed'
        let warn : List Msg := if missing.isEmpty then [] else [Msg.sustainWarning missing]
        if cur.type = EventType.chord then
          let elapsed := match chordStart' with | some t => now - t | none => 0
          if elapsed ≤ CHORD_WINDOW then
            (⟨s.cursor + 1, pressed', ∅, none⟩,
             Msg.ok pitch :: warn ++ [Msg.validated s.cursor])
          else
            (⟨s.cursor, ∅, cur.pitches.toFinset, none⟩,
             Msg.ok pitch :: warn ++ [Msg.chordTooSlow])
        else
          (⟨s.cursor + 1, pressed', pending', chordStart'⟩,
           Msg.ok pitch :: warn ++ [Msg.validated s.cursor])
      else (⟨s.cursor, pressed', pending', chordStart'⟩, [Msg.ok pitch])
  else (s, [])

/-- Source: the `note_off` branch (lines 361-364): discard the pitch. -/
def keyUp (pitch : Nat) (s : MatcherState) : MatcherState :=
  ⟨s.cursor, s.pressed.erase pitch, s.pending, s.chordStart⟩

/-- Source: the first-index search of the jump handler
(`for idx, event in enumerate(events): if event.measure == target_bar: ... break`). -/
def findMeasureIdx (events : List MusicEvent) (target : Int) : Option Nat :=
  match events with
  | [] => none
  | e :: rest =>
    if e.measure = target then some 0
    else (findMeasureIdx rest target).map (· + 1)

/-- Source: the `j<number>` command handler of the main loop (lines 254-280). -/
def jump (events : List MusicEvent) (target : Int) (s : MatcherState) :
    MatcherState × List Msg :=
  match findMeasureIdx events target with
  | some idx => (⟨idx, ∅, ∅, none⟩, [Msg.jumped target])
  | none => (s, [Msg.measureNotFound target])

/-- The all-clear initial matcher state set up at the start of the session. -/
def initState : MatcherState := ⟨0, ∅, ∅, none⟩

/-- Spec test sequence for the sustain-most-recent property:
`[C4@0 dur1, D4@2 dur1, C4@4 dur2, E4@7 dur1]`. -/
def exSustain : List MusicEvent :=
  [⟨EventType.note, [60], 1, 0, 1⟩, ⟨EventType.note, [62], 1, 2, 1⟩,
   ⟨EventType.note, [60], 2, 4, 1⟩, ⟨EventType.note, [64], 1, 7, 2⟩]

/-- Two same-offset raw notes with distinct pitches. -/
def exTwoPitches : List MusicEvent :=
  [⟨EventType.note, [60], 1, 0, 1⟩, ⟨EventType.note, [64], 1, 0, 1⟩]

/-- Two same-offset raw notes with the same pitch and durations 1 and 4. -/
def exSamePitch : List MusicEvent :=
  [⟨EventType.note, [60], 1, 0, 1⟩, ⟨EventType.note, [60], 4, 0, 1⟩]

/-- A same-offset run where pitch 60 shares its first entry with pitch 64,
and 64 later recurs with a much longer duration. -/
def exShared : List MusicEvent :=
  [⟨EventType.chord, [60, 64], 1, 0, 1⟩, ⟨EventType.note, [60], 2, 0, 1⟩,
   ⟨EventType.note, [64], 10, 0, 1⟩]

/-- Two consecutive single notes, used against the matcher. -/
def exTwoNotes : List MusicEvent :=
  [⟨EventType.note, [60], 1, 0, 1⟩, ⟨EventType.note, [62], 1, 1, 1⟩]

/-- A chord followed by a note, used against the matcher. -/
def exChordSeq : List MusicEvent :=
  [⟨EventType.chord, [60, 64], 1, 0, 1⟩, ⟨EventType.note, [62], 1, 1, 1⟩]

/-- Matcher state after the first correct chord key-down of `exChordSeq` at time 0. -/
def exChordMid : MatcherState := (keyDown exChordSeq 0 60 initState).1

/-- Sequence with measure numbers `[1, 1, 2, 2, 3]` (spec jump example). -/
def exMeasures : List MusicEvent :=
  [⟨EventType.note, [60], 1, 0, 1⟩, ⟨EventType.note, [62], 1, 1, 1⟩,
   ⟨EventType.note, [64], 1, 2, 2⟩, ⟨EventType.note, [65], 1, 3, 2⟩,
   ⟨EventType.note, [67], 1, 4, 3⟩]

section Proofs

theorem findLastOcc_eq_none (events : List MusicEvent) (p : Nat) :
    ∀ i, (∀ j, j < i → p ∉ (events.getD j dfltEvent).pitches) →
    findLastOcc events p i = none := by
  intro i
  induction i with
  | zero => intro _; rfl
  | succ n ih =>
    intro h
    have hn : p ∉ (events.getD n dfltEvent).pitches := h n (Nat.lt_succ_self n)
    simp only [findLastOcc, hn, if_false]
    exact ih fun j hj => h j (Nat.lt_succ_of_lt hj)

theorem findLastOcc_eq_some (events : List MusicEvent) (p : Nat) :
    ∀ i j, j < i → p ∈ (events.getD j dfltEvent).pitches →
    (∀ k, k < i → j < k → p ∉ (events.getD k dfltEvent).pitches) →
    findLastOcc events p i = some j := by
  intro i
  induction i with
  | zero => intro j hj; exact absurd hj (Nat.not_lt_zero j)
  | succ n ih =>
    intro j hj hmem hnone
    rcases Nat.lt_succ_iff_lt_or_eq.mp hj with hlt | rfl
    · have hn : p ∉ (events.getD n dfltEvent).pitches :=
        hnone n (Nat.lt_succ_self n) hlt
      simp only [findLastOcc, hn, if_false]
      exact ih j hlt hmem fun k hk hjk => hnone k (Nat.lt_succ_of_lt hk) hjk
    · simp only [findLastOcc]
      rw [if_pos hmem]

/-- Claim C3: `should_note_be_held` considers only the nearest prior event
containing the pitch — it returns false if no prior event contains it, and
otherwise decides via `holdDecision` applied to that most recent occurrence
and the target event alone; in particular on the sequence
`[C4@0 dur1, D4@2 dur1, C4@4 dur2, E4@7 dur1]`, `should_note_be_held 60 3`
is false. -/
theorem claim_C3 :
    (∀ (events : List MusicEvent) (p i : Nat), i < events.length →
      ((∀ j, j < i → p ∉ (events.getD j dfltEvent).pitches) →
        should_note_be_held events p i = false)
      ∧ (∀ j, j < i → p ∈ (events.getD j dfltEvent).pitches →
          (∀ k, k < i → j < k → p ∉ (events.getD k dfltEvent).pitches) →
          should_note_be_held events p i
            = holdDecision (events.getD j dfltEvent) (events.getD i dfltEvent)))
    ∧ should_note_be_held exSustain 60 3 = false := by
  constructor
  · intro events p i hi
    constructor
    · intro h
      unfold should_note_be_held
      rw [findLastOcc_eq_none events p i h]
    · intro j hj hmem hnone
      unfold should_note_be_held
      rw [findLastOcc_eq_some events p i j hj hmem hnone]
      simp only [hi, if_true, holdDecision]
  · with_unfolding_all decide

/-- Claim C3 witness: on the spec's sustain-most-recent sequence the function
decides from index 2 (the nearest prior C4) against index 3. -/
theorem claim_C3_witness :
    should_note_be_held exSustain 60 3
      = holdDecision (exSustain.getD 2 dfltEvent) (exSustain.getD 3 dfltEvent) :=
  (claim_C3.1 exSustain 60 3 (by decide)).2 2 (by decide) (by decide) (by decide)

/-- Claim C4: when the nearest prior occurrence of the pitch exists,
`should_note_be_held` returns false on a simultaneous onset (offset difference
below the tolerance), and otherwise returns true iff the occurrence's end
(offset + duration) exceeds the target offset plus the tolerance. -/
theorem claim_C4 :
    ∀ (events : List MusicEvent) (p i j : Nat), i < events.length →
    j < i → p ∈ (events.getD j dfltEvent).pitches →
    (∀ k, k < i → j < k → p ∉ (events.getD k dfltEvent).pitches) →
    ((|(events.getD j dfltEvent).offset - (events.getD i dfltEvent).offset| < tol →
        should_note_be_held events p i = false)
     ∧ (¬ |(events.getD j dfltEvent).offset - (events.getD i dfltEvent).offset| < tol →
        (should_note_be_held events p i = true ↔
          (events.getD j dfltEvent).offset + (events.getD j dfltEvent).duration
            > (events.getD i dfltEvent).offset + tol))) := by
  intro events p i j hi hj hmem hnone
  unfold should_note_be_held
  rw [findLastOcc_eq_some events p i j hj hmem hnone]
  constructor
  · intro habs
    simp only [hi, if_true, habs]
  · intro habs
    simp only [hi, if_true, habs, if_false, decide_eq_true_eq]

/-- Claim C4 witness: in the sustain-most-recent sequence, index 2's C4
(offset 4, end 6) imposes no obligation at index 3 (offset 7). -/
theorem claim_C4_witness :
    ¬ |(exSustain.getD 2 dfltEvent).offset - (exSustain.getD 3 dfltEvent).offset| < tol
    ∧ (should_note_be_held exSustain 60 3 = true ↔
        (exSustain.getD 2 dfltEvent).offset + (exSustain.getD 2 dfltEvent).duration
          > (exSustain.getD 3 dfltEvent).offset + tol) :=
  ⟨by with_unfolding_all decide,
   (claim_C4 exSustain 60 3 2 (by decide) (by decide) (by decide) (by decide)).2
     (by with_unfolding_all decide)⟩

/-- Claim C9: the pitch formatter is the pure concatenation of a name and an
octave; the name is periodic with period 12 and the octave of `p + 12` is one
greater, the octave being `p / 12 - 1` (floor division). -/
theorem claim_C9 :
    ∀ p : Nat, p ≤ 127 →
    midi_to_french p = frenchName p ++ toString (frenchOctave p)
    ∧ frenchName (p + 12) = frenchName p
    ∧ frenchOctave (p + 12) = frenchOctave p + 1
    ∧ frenchOctave p = (p : Int) / 12 - 1 := by
  intro p _
  refine ⟨rfl, ?_, ?_, rfl⟩
  · unfold frenchName
    rw [Nat.add_mod_right]
  · unfold frenchOctave
    push_cast
    omega

/-- Claim C9 witness: instantiation at middle C (pitch 60). -/
theorem claim_C9_witness :
    midi_to_french 60 = frenchName 60 ++ toString (frenchOctave 60)
    ∧ frenchName (60 + 12) = frenchName 60
    ∧ frenchOctave (60 + 12) = frenchOctave 60 + 1
    ∧ frenchOctave 60 = (60 : Int) / 12 - 1 :=
  claim_C9 60 (by decide)

/-- Claim C10: a chord event is reported complete whenever every one of its
pitches is pressed, regardless of any extra pressed pitches. -/
theorem claim_C10 :
    ∀ (event : MusicEvent) (pressed : Finset Nat),
    event.type = EventType.chord → (∀ p ∈ event.pitches, p ∈ pressed) →
    check_event_completed pressed event = true := by
  intro event pressed ht h
  unfold check_event_completed
  rw [ht]
  simp only [List.all_eq_true, decide_eq_true_eq]
  exact h

/-- Claim C10 witness: a C major chord is complete with the extra pitch 69
also pressed. -/
theorem claim_C10_witness :
    check_event_completed {60, 64, 67, 69} ⟨EventType.chord, [60, 64, 67], 1, 0, 1⟩ = true :=
  claim_C10 ⟨EventType.chord, [60, 64, 67], 1, 0, 1⟩ {60, 64, 67, 69} rfl (by decide)

theorem findMeasureIdx_eq_none (target : Int) :
    ∀ events : List MusicEvent,
    (∀ i, i < events.length → (events.getD i dfltEvent).measure ≠ target) →
    findMeasureIdx events target = none := by
  intro events
  induction events with
  | nil => intro _; rfl
  | cons e rest ih =>
    intro h
    have h0 : e.measure ≠ target := h 0 (Nat.succ_pos _)
    simp only [findMeasureIdx, h0, if_false, Option.map_eq_none']
    exact ih fun i hi => h (i + 1) (Nat.succ_lt_succ hi)

theorem findMeasureIdx_eq_some (target : Int) :
    ∀ (events : List MusicEvent) (i : Nat), i < events.length →
    (events.getD i dfltEvent).measure = target →
    (∀ j, j < i → (events.getD j dfltEvent).measure ≠ target) →
    findMeasureIdx events target = some i := by
  intro events
  induction events with
  | nil => intro i hi; exact absurd hi (Nat.not_lt_zero i)
  | cons e rest ih =>
    intro i hi hm hleast
    match i with
    | 0 =>
      simp only [List.getD_cons_zero] at hm
      unfold findMeasureIdx
      rw [if_pos hm]
    | n + 1 =>
      have h0 : e.measure ≠ target := hleast 0 (Nat.succ_pos _)
      unfold findMeasureIdx
      rw [if_neg h0]
      have : findMeasureIdx rest target = some n :=
        ih n (Nat.lt_of_succ_lt_succ hi) hm
          fun j hj => hleast (j + 1) (Nat.succ_lt_succ hj)
      rw [this]
      rfl

/-- Claim C6: `jump m` moves the cursor to the lowest index whose event has
measure `m`, clearing the pressed set, the pending set and the chord window
start, when such an event exists; otherwise it reports Measure-Not-Found and
leaves the state untouched. -/
theorem claim_C6 :
    ∀ (events : List MusicEvent) (s : MatcherState) (m : Int),
    (∀ i, i < events.length → (events.getD i dfltEvent).measure = m →
      (∀ j, j < i → (events.getD j dfltEvent).measure ≠ m) →
      jump events m s = (⟨i, ∅, ∅, none⟩, [Msg.jumped m]))
    ∧ ((∀ i, i < events.length → (events.getD i dfltEvent).measure ≠ m) →
      jump events m s = (s, [Msg.measureNotFound m])) := by
  intro events s m
  constructor
  · intro i hi hm hleast
    unfold jump
    rw [findMeasureIdx_eq_some m events i hi hm hleast]
  · intro h
    unfold jump
    rw [findMeasureIdx_eq_none m events h]

/-- Claim C6 witness: on the spec's measures `[1,1,2,2,3]`, `jump 2` sets the
cursor to index 2 and `jump 5` reports Measure-Not-Found with the state
unchanged. -/
theorem claim_C6_witness :
    jump exMeasures 2 initState = (⟨2, ∅, ∅, none⟩, [Msg.jumped 2])
    ∧ jump exMeasures 5 initState = (initState, [Msg.measureNotFound 5]) :=
  ⟨(claim_C6 exMeasures initState 2).1 2 (by decide) (by decide) (by decide),
   (claim_C6 exMeasures initState 5).2 (by decide)⟩

/-- Claim C1 counterexample: merging two same-offset raw notes with distinct
pitches re-emits two events, both at offset 0 — the merged output does not
have pairwise distinct onsets, and the run is not collapsed into a single
event per onset. -/
theorem claim_C1_cex :
    mergeEvents exTwoPitches = exTwoPitches
    ∧ ¬ List.Pairwise (fun a b : MusicEvent => a.offset ≠ b.offset)
        (mergeEvents exTwoPitches) := by
  constructor
  · with_unfolding_all decide
  · with_unfolding_all decide

/-- Claim C2 counterexample: completing the first Note of `exTwoNotes` advances
the cursor but does not clear the pressed set — pitch 60 stays pressed while
the new current event expects only pitch 62. -/
theorem claim_C2_cex :
    (keyDown exTwoNotes 0 60 initState).1.cursor = 1
    ∧ (keyDown exTwoNotes 0 60 initState).1.pressed ≠ ∅
    ∧ ¬ (∀ p ∈ (keyDown exTwoNotes 0 60 initState).1.pressed,
          p ∈ (exTwoNotes.getD (keyDown exTwoNotes 0 60 initState).1.cursor
                  dfltEvent).pitches) := by
  refine ⟨by with_unfolding_all decide, by with_unfolding_all decide,
    by with_unfolding_all decide⟩

/-- Claim C2 amended: completing a Note event advances the cursor by one and
inserts the pressed pitch into the pressed set without clearing it; pitches
leave the pressed set only through key-up. -/
theorem claim_C2_amended :
    ∀ (events : List MusicEvent) (now : ℚ) (pitch : Nat) (s : MatcherState),
    s.cursor < events.length →
    (events.getD s.cursor dfltEvent).type = EventType.note →
    (events.getD s.cursor dfltEvent).pitches = [pitch] →
    (keyDown events now pitch s).1
      = ⟨s.cursor + 1, insert pitch s.pressed, s.pending, s.chordStart⟩ := by
  intro events now pitch s h ht hp
  simp only [keyDown, h, if_true, hp, ht, check_event_completed]
  simp

/-- Claim C2 amended witness: pressing C4 on the first Note of `exTwoNotes`. -/
theorem claim_C2_amended_witness :
    (keyDown exTwoNotes 0 60 initState).1
      = ⟨initState.cursor + 1, insert 60 initState.pressed,
         initState.pending, initState.chordStart⟩ :=
  claim_C2_amended exTwoNotes 0 60 initState (by decide) (by decide) (by decide)

/-- Claim C5 counterexample: completing the chord of `exChordSeq` in time
advances the cursor but leaves both chord pitches in the pressed set instead
of clearing it. -/
theorem claim_C5_cex :
    (keyDown exChordSeq 0 64 exChordMid).1.cursor = 1
    ∧ (keyDown exChordSeq 0 64 exChordMid).1.pressed = {60, 64} := by
  refine ⟨by with_unfolding_all decide, by with_unfolding_all decide⟩

/-- Claim C5 amended: when the last required chord pitch arrives, if the
elapsed time since the chord window start is at most `CHORD_WINDOW` the
matcher advances, clearing the chord window start and the pending set but
retaining the pressed set; if it exceeds `CHORD_WINDOW` the matcher emits
Chord-Too-Slow, keeps the cursor, clears the pressed set and the chord window
start, and resets the pending set to the full chord. -/
theorem claim_C5_amended :
    ∀ (events : List MusicEvent) (now t0 : ℚ) (pitch : Nat) (s : MatcherState),
    s.cursor < events.length →
    (events.getD s.cursor dfltEvent).type = EventType.chord →
    pitch ∈ (events.getD s.cursor dfltEvent).pitches →
    s.chordStart = some t0 →
    (∀ q ∈ (events.getD s.cursor dfltEvent).pitches, q ∈ insert pitch s.pressed) →
    ((now - t0 ≤ CHORD_WINDOW →
      (keyDown events now pitch s).1 = ⟨s.cursor + 1, insert pitch s.pressed, ∅, none⟩
        ∧ Msg.chordTooSlow ∉ (keyDown events now pitch s).2)
     ∧ (¬ now - t0 ≤ CHORD_WINDOW →
      (keyDown events now pitch s).1
          = ⟨s.cursor, ∅, (events.getD s.cursor dfltEvent).pitches.toFinset, none⟩
        ∧ Msg.chordTooSlow ∈ (keyDown events now pitch s).2)) := by
  intro events now t0 pitch s h ht hpmem hcs hall
  have hcomp : check_event_completed (insert pitch s.pressed)
      (events.getD s.cursor dfltEvent) = true := by
    unfold check_event_completed
    rw [ht]
    simp only [List.all_eq_true, decide_eq_true_eq]
    exact hall
  have hnp : ¬ pitch ∉ (events.getD s.cursor dfltEvent).pitches := fun hc => hc hpmem
  constructor
  · intro htime
    simp only [keyDown, h, if_true, hnp, if_false, hcomp, ht, hcs, htime]
    constructor
    · simp
    · rcases Decidable.em ((missingHeld events s.cursor (insert pitch s.pressed)).isEmpty = true)
        with he | he <;> simp [he]
  · intro htime
    simp only [keyDown, h, if_true, hnp, if_false, hcomp, ht, hcs, htime]
    constructor
    · simp
    · rcases Decidable.em ((missingHeld events s.cursor (insert pitch s.pressed)).isEmpty = true)
        with he | he <;> simp [he]

/-- Claim C5 amended witness: completing the chord of `exChordSeq` at time 0
(elapsed 0 ≤ 0.5) advances and retains the pressed pitches. -/
theorem claim_C5_amended_witness :
    (keyDown exChordSeq 0 64 exChordMid).1
        = ⟨exChordMid.cursor + 1, insert 64 exChordMid.pressed, ∅, none⟩
    ∧ Msg.chordTooSlow ∉ (keyDown exChordSeq 0 64 exChordMid).2 :=
  (claim_C5_amended exChordSeq 0 0 64 exChordMid (by decide) (by decide) (by decide)
    (by decide) (by decide)).1 (by with_unfolding_all decide)

theorem tol_pos : 0 < tol := by norm_num [tol]

theorem foldl_max_init (l : List ℚ) : ∀ a : ℚ, a ≤ l.foldl max a := by
  induction l with
  | nil => intro a; exact le_rfl
  | cons c l ih => intro a; exact le_trans (le_max_left a c) (ih (max a c))

theorem foldl_max_mem (l : List ℚ) : ∀ (a b : ℚ), b ∈ l → b ≤ l.foldl max a := by
  induction l with
  | nil => intro a b hb; exact absurd hb (List.not_mem_nil b)
  | cons c l ih =>
    intro a b hb
    rcases List.mem_cons.mp hb with rfl | hb
    · exact le_trans (le_max_right a b) (foldl_max_init l (max a b))
    · exact ih (max a c) b hb

theorem foldl_max_const (l : List ℚ) : ∀ a : ℚ, (∀ b ∈ l, b = a) → l.foldl max a = a := by
  induction l with
  | nil => intro a _; rfl
  | cons c l ih =>
    intro a h
    have hc : c = a := h c (List.mem_cons_self c l)
    subst hc
    rw [List.foldl_cons, max_self]
    exact ih c fun b hb => h b (List.mem_cons_of_mem c hb)

theorem le_maxDurOf (pmd : Nat → Option ℚ) :
    ∀ (ps : List Nat) (p : Nat), p ∈ ps → (pmd p).getD 0 ≤ maxDurOf pmd ps := by
  intro ps p hp
  match ps with
  | [] => exact absurd hp (List.not_mem_nil p)
  | q :: qs =>
    rcases List.mem_cons.mp hp with rfl | hp
    · exact foldl_max_init _ _
    · exact foldl_max_mem _ _ _ (List.mem_map_of_mem (fun r => (pmd r).getD 0) hp)

theorem maxDurOf_const (pmd : Nat → Option ℚ) :
    ∀ (ps : List Nat) (d : ℚ), ps ≠ [] → (∀ q ∈ ps, (pmd q).getD 0 = d) →
    maxDurOf pmd ps = d := by
  intro ps d hne h
  match ps with
  | [] => exact absurd rfl hne
  | q :: qs =>
    show (qs.map fun r => (pmd r).getD 0).foldl max ((pmd q).getD 0) = d
    rw [h q (List.mem_cons_self q qs)]
    refine foldl_max_const _ d fun b hb => ?_
    rcases List.mem_map.mp hb with ⟨r, hr, rfl⟩
    exact h r (List.mem_cons_of_mem q hr)

theorem pitchMaxDurFrom_skip (p : Nat) :
    ∀ (run : List MusicEvent) (acc : Option ℚ), (∀ e ∈ run, p ∉ e.pitches) →
    pitchMaxDurFrom p acc run = acc := by
  intro run
  induction run with
  | nil => intro acc _; rfl
  | cons e rest ih =>
    intro acc h
    have he : p ∉ e.pitches := h e (List.mem_cons_self e rest)
    simp only [pitchMaxDurFrom]
    rw [if_neg he]
    exact ih acc fun f hf => h f (List.mem_cons_of_mem e hf)

theorem pitchMaxDurFrom_mono (p : Nat) :
    ∀ (run : List MusicEvent) (d0 : ℚ),
    ∃ d, pitchMaxDurFrom p (some d0) run = some d ∧ d0 ≤ d := by
  intro run
  induction run with
  | nil => intro d0; exact ⟨d0, rfl, le_rfl⟩
  | cons e rest ih =>
    intro d0
    by_cases he : p ∈ e.pitches
    · rcases ih (max d0 e.duration) with ⟨d, hd, hle⟩
      refine ⟨d, ?_, le_trans (le_max_left _ _) hle⟩
      simp only [pitchMaxDurFrom]
      rw [if_pos he]
      exact hd
    · rcases ih d0 with ⟨d, hd, hle⟩
      refine ⟨d, ?_, hle⟩
      simp only [pitchMaxDurFrom]
      rw [if_neg he]
      exact hd

theorem pitchMaxDur_some_of_mem (p : Nat) :
    ∀ (run : List MusicEvent) (acc : Option ℚ) (e : MusicEvent), e ∈ run → p ∈ e.pitches →
    ∃ d, pitchMaxDurFrom p acc run = some d ∧ e.duration ≤ d := by
  intro run
  induction run with
  | nil => intro acc e he; exact absurd he (List.not_mem_nil e)
  | cons z rest ih =>
    intro acc e he hp
    rcases List.mem_cons.mp he with rfl | he
    · simp only [pitchMaxDurFrom]
      rw [if_pos hp]
      match acc with
      | none =>
        rcases pitchMaxDurFrom_mono p rest e.duration with ⟨d, hd, hle⟩
        exact ⟨d, hd, hle⟩
      | some d0 =>
        rcases pitchMaxDurFrom_mono p rest (max d0 e.duration) with ⟨d, hd, hle⟩
        exact ⟨d, hd, le_trans (le_max_right _ _) hle⟩
    · exact ih _ e he hp

theorem pitchMaxDur_unique (p : Nat) :
    ∀ (run : List MusicEvent) (x : MusicEvent),
    List.Pairwise (fun a b => ∀ q ∈ a.pitches, q ∉ b.pitches) run →
    x ∈ run → p ∈ x.pitches →
    pitchMaxDur run p = some x.duration := by
  intro run
  induction run with
  | nil => intro x _ hx; exact absurd hx (List.not_mem_nil x)
  | cons z rest ih =>
    intro x hpw hx hp
    rcases List.pairwise_cons.mp hpw with ⟨hz, hrest⟩
    rcases List.mem_cons.mp hx with rfl | hx
    · show pitchMaxDurFrom p none (x :: rest) = some x.duration
      simp only [pitchMaxDurFrom]
      rw [if_pos hp]
      exact pitchMaxDurFrom_skip p rest (some x.duration) fun f hf => hz f hf p hp
    · have hpz : p ∉ z.pitches := fun hpz => hz x hx p hpz hp
      show pitchMaxDurFrom p none (z :: rest) = some x.duration
      simp only [pitchMaxDurFrom]
      rw [if_neg hpz]
      exact ih x hrest hx hp

theorem emitRun_mem (pmd : Nat → Option ℚ) :
    ∀ (run : List MusicEvent) (pr : List Nat) (x : MusicEvent), x ∈ emitRun pmd run pr →
    ∃ e ∈ run, x.offset = e.offset ∧ x.measure = e.measure
      ∧ (∀ p ∈ x.pitches, p ∈ e.pitches)
      ∧ x.pitches ≠ []
      ∧ x.type = (if x.pitches.length = 1 then EventType.note else EventType.chord)
      ∧ x.duration = maxDurOf pmd x.pitches
      ∧ (∀ p ∈ x.pitches, p ∉ pr) := by
  intro run
  induction run with
  | nil => intro pr x hx; exact absurd hx (List.not_mem_nil x)
  | cons e rest ih =>
    intro pr x hx
    by_cases hep : e.pitches.filter (fun p => decide (p ∉ pr)) = []
    · simp only [emitRun] at hx
      rw [if_pos hep] at hx
      rcases ih pr x hx with ⟨f, hf, hrest⟩
      exact ⟨f, List.mem_cons_of_mem e hf, hrest⟩
    · simp only [emitRun] at hx
      rw [if_neg hep] at hx
      rcases List.mem_cons.mp hx with rfl | hx
      · refine ⟨e, List.mem_cons_self e rest, rfl, rfl, ?_, hep, rfl, rfl, ?_⟩
        · intro p hp; exact (List.mem_filter.mp hp).1
        · intro p hp; exact of_decide_eq_true (List.mem_filter.mp hp).2
      · rcases ih _ x hx with ⟨f, hf, h1, h2, h3, h4, h5, h6, h7⟩
        refine ⟨f, List.mem_cons_of_mem e hf, h1, h2, h3, h4, h5, h6, ?_⟩
        intro p hp hpr
        exact h7 p hp (List.mem_append_left _ hpr)

theorem emitRun_pairwise (pmd : Nat → Option ℚ) :
    ∀ (run : List MusicEvent) (pr : List Nat),
    List.Pairwise (fun a b => ∀ p ∈ a.pitches, p ∉ b.pitches) (emitRun pmd run pr) := by
  intro run
  induction run with
  | nil => intro pr; exact List.Pairwise.nil
  | cons e rest ih =>
    intro pr
    by_cases hep : e.pitches.filter (fun p => decide (p ∉ pr)) = []
    · simp only [emitRun]
      rw [if_pos hep]
      exact ih pr
    · simp only [emitRun]
      rw [if_neg hep]
      refine List.Pairwise.cons ?_ (ih _)
      intro z hz p hp hpz
      rcases emitRun_mem pmd rest _ z hz with ⟨f, _, _, _, _, _, _, _, h7⟩
      exact h7 p hpz (List.mem_append_right pr hp)

theorem mergeGo_congr :
    ∀ (f1 f2 : Nat) (l : List MusicEvent), l.length ≤ f1 → l.length ≤ f2 →
    mergeGo f1 l = mergeGo f2 l := by
  intro f1
  induction f1 with
  | zero =>
    intro f2 l h1 _
    have hnil : l = [] := List.length_eq_zero.mp (Nat.le_zero.mp h1)
    subst hnil
    cases f2 <;> rfl
  | succ n ih =>
    intro f2 l h1 h2
    match l with
    | [] => cases f2 <;> rfl
    | e :: rest =>
      match f2 with
      | 0 => exact absurd h2 (by simp)
      | m + 1 =>
        simp only [mergeGo]
        congr 1
        exact ih m _
          (le_trans (List.dropWhile_sublist _).length_le (Nat.le_of_succ_le_succ h1))
          (le_trans (List.dropWhile_sublist _).length_le (Nat.le_of_succ_le_succ h2))

theorem mergeGo_eq_mergeEvents (fuel : Nat) (l : List MusicEvent) (h : l.length ≤ fuel) :
    mergeGo fuel l = mergeEvents l :=
  mergeGo_congr fuel l.length l h le_rfl

theorem mergeEvents_cons (e : MusicEvent) (rest : List MusicEvent) :
    mergeEvents (e :: rest)
      = emitRun
          (pitchMaxDur (e :: rest.takeWhile fun x => decide (|x.offset - e.offset| < tol)))
          (e :: rest.takeWhile fun x => decide (|x.offset - e.offset| < tol)) []
        ++ mergeEvents (rest.dropWhile fun x => decide (|x.offset - e.offset| < tol)) := by
  show mergeGo (rest.length + 1) (e :: rest) = _
  simp only [mergeGo]
  congr 1
  exact mergeGo_eq_mergeEvents rest.length _ (List.dropWhile_sublist _).length_le

theorem mergeGo_mem :
    ∀ (fuel : Nat) (l : List MusicEvent) (x : MusicEvent), x ∈ mergeGo fuel l →
    ∃ e ∈ l, x.offset = e.offset := by
  intro fuel
  induction fuel with
  | zero =>
    intro l x hx
    match l with
    | [] => exact absurd hx (List.not_mem_nil x)
    | _ :: _ => exact absurd hx (List.not_mem_nil x)
  | succ n ih =>
    intro l x hx
    match l with
    | [] => exact absurd hx (List.not_mem_nil x)
    | e :: rest =>
      simp only [mergeGo] at hx
      rcases List.mem_append.mp hx with hx | hx
      · rcases emitRun_mem _ _ _ x hx with ⟨f, hf, h1, _⟩
        rcases List.mem_cons.mp hf with rfl | hf
        · exact ⟨f, List.mem_cons_self f rest, h1⟩
        · exact ⟨f, List.mem_cons_of_mem e ((List.takeWhile_sublist _).subset hf), h1⟩
      · rcases ih _ x hx with ⟨f, hf, h1⟩
        exact ⟨f, List.mem_cons_of_mem e ((List.dropWhile_sublist _).subset hf), h1⟩

theorem mergeEvents_mem (l : List MusicEvent) (x : MusicEvent) (hx : x ∈ mergeEvents l) :
    ∃ e ∈ l, x.offset = e.offset :=
  mergeGo_mem l.length l x hx

theorem dropWhile_bound (e : MusicEvent) :
    ∀ rest : List MusicEvent,
    List.Pairwise (fun a b : MusicEvent => a.offset ≤ b.offset) rest →
    (∀ b ∈ rest, e.offset ≤ b.offset) →
    ∀ f ∈ rest.dropWhile (fun x => decide (|x.offset - e.offset| < tol)),
    e.offset + tol ≤ f.offset := by
  intro rest
  induction rest with
  | nil => intro _ _ f hf; exact absurd hf (List.not_mem_nil f)
  | cons z rs ih =>
    intro hp hs f hf
    rcases List.pairwise_cons.mp hp with ⟨hz1, hp1⟩
    by_cases hz : |z.offset - e.offset| < tol
    · rw [List.dropWhile_cons, if_pos (decide_eq_true hz)] at hf
      exact ih hp1 (fun b hb => hs b (List.mem_cons_of_mem z hb)) f hf
    · rw [List.dropWhile_cons, if_neg (by simpa using hz)] at hf
      have hez : e.offset ≤ z.offset := hs z (List.mem_cons_self z rs)
      have hzt : e.offset + tol ≤ z.offset := by
        rw [not_lt, le_abs] at hz
        rcases hz with h | h
        · linarith
        · have := tol_pos; linarith
      rcases List.mem_cons.mp hf with rfl | hf
      · exact hzt
      · exact le_trans hzt (hz1 f hf)

/-- Claim C1 amended: after the merge of a sorted input, any two output events
with equal offsets have disjoint pitch lists — each pitch appears at most once
per onset — but a run of near-equal offsets is re-emitted as one event per raw
entry contributing new pitches, so distinct output events may share an onset. -/
theorem claim_C1_amended :
    ∀ events : List MusicEvent,
    List.Pairwise (fun a b : MusicEvent => a.offset ≤ b.offset) events →
    List.Pairwise
      (fun a b : MusicEvent => a.offset = b.offset → ∀ p ∈ a.pitches, p ∉ b.pitches)
      (mergeEvents events) := by
  suffices h : ∀ (fuel : Nat) (l : List MusicEvent), l.length ≤ fuel →
      List.Pairwise (fun a b : MusicEvent => a.offset ≤ b.offset) l →
      List.Pairwise
        (fun a b : MusicEvent => a.offset = b.offset → ∀ p ∈ a.pitches, p ∉ b.pitches)
        (mergeGo fuel l) by
    intro events hs
    have h2 := h events.length events le_rfl hs
    rwa [mergeGo_eq_mergeEvents events.length events le_rfl] at h2
  intro fuel
  induction fuel with
  | zero =>
    intro l hl _
    have hnil : l = [] := List.length_eq_zero.mp (Nat.le_zero.mp hl)
    subst hnil
    exact List.Pairwise.nil
  | succ n ih =>
    intro l hl hs
    match l with
    | [] => exact List.Pairwise.nil
    | e :: rest =>
      rcases List.pairwise_cons.mp hs with ⟨hse, hsrest⟩
      simp only [mergeGo]
      rw [List.pairwise_append]
      refine ⟨?_, ?_, ?_⟩
      · refine List.Pairwise.imp ?_ (emitRun_pairwise _ _ _)
        intro a b hab _
        exact hab
      · exact ih _
          (le_trans (List.dropWhile_sublist _).length_le (Nat.le_of_succ_le_succ hl))
          (List.Pairwise.sublist (List.dropWhile_sublist _) hsrest)
      · intro a ha b hb
        rcases emitRun_mem _ _ _ a ha with ⟨g, hg, hga, _⟩
        rcases mergeGo_mem _ _ b hb with ⟨f, hf, hfb⟩
        have hbound : e.offset + tol ≤ f.offset :=
          dropWhile_bound e rest hsrest hse f hf
        have hgtol : |g.offset - e.offset| < tol := by
          rcases List.mem_cons.mp hg with rfl | hg'
          · simpa using tol_pos
          · have hq := List.mem_takeWhile_imp hg'
            exact of_decide_eq_true hq
        intro heq
        exfalso
        rw [abs_sub_lt_iff] at hgtol
        have hlt : a.offset < b.offset := by
          rw [hga, hfb]
          linarith [hgtol.1]
        exact absurd heq (ne_of_lt hlt)

/-- Claim C1 amended witness: the merged two-pitch example is pairwise
pitch-disjoint at equal offsets. -/
theorem claim_C1_amended_witness :
    List.Pairwise
      (fun a b : MusicEvent => a.offset = b.offset → ∀ p ∈ a.pitches, p ∉ b.pitches)
      (mergeEvents exTwoPitches) :=
  claim_C1_amended exTwoPitches (by decide)

theorem mergeEvents_single_run (e : MusicEvent) (rest : List MusicEvent)
    (h : ∀ f ∈ rest, f.offset = e.offset) :
    mergeEvents (e :: rest) = emitRun (pitchMaxDur (e :: rest)) (e :: rest) [] := by
  have hall : ∀ x ∈ rest, decide (|x.offset - e.offset| < tol) = true := by
    intro x hx
    rw [h x hx, sub_self, abs_zero]
    exact decide_eq_true tol_pos
  rw [mergeEvents_cons, List.takeWhile_eq_self_iff.mpr hall,
    List.dropWhile_eq_nil_iff.mpr hall]
  rw [show mergeEvents ([] : List MusicEvent) = [] from rfl, List.append_nil]

/-- Claim C7 counterexample: in the same-onset run `exShared`, pitch 60 appears
in entries of durations 1 and 2 (its per-pitch maximum is 2), yet the merge
emits it inside a chord of duration 10 inherited from its sibling pitch 64 —
a pitch appearing in multiple entries does not in general retain the maximum
duration among those entries. -/
theorem claim_C7_cex :
    mergeEvents exShared = [⟨EventType.chord, [60, 64], 10, 0, 1⟩]
    ∧ pitchMaxDur exShared 60 = some 2
    ∧ (10 : ℚ) ≠ 2 := by
  refine ⟨by with_unfolding_all decide, by with_unfolding_all decide, by norm_num⟩

/-- Claim C7 amended: within a same-onset run the merge keeps, for each pitch,
the maximum duration among the entries containing it (`pitchMaxDur`); each
emitted event's duration is the maximum of these per-pitch maxima over the
pitches it carries, so every pitch's emitted event lasts at least that pitch's
own maximum, and exactly it when the event carries that single pitch; in
particular two raw entries with equal offset, equal single pitch, and
durations 1 and 4 merge into one Note event of duration 4. -/
theorem claim_C7 :
    mergeEvents exSamePitch = [⟨EventType.note, [60], 4, 0, 1⟩]
    ∧ ∀ (events : List MusicEvent) (o : ℚ), (∀ f ∈ events, f.offset = o) →
      ∀ x ∈ mergeEvents events, ∀ p ∈ x.pitches,
        pitchMaxDur events p ≠ none
        ∧ (pitchMaxDur events p).getD 0 ≤ x.duration
        ∧ (x.pitches = [p] → x.duration = (pitchMaxDur events p).getD 0) := by
  constructor
  · with_unfolding_all decide
  · intro events o ho x hx p hp
    match events with
    | [] => exact absurd hx (List.not_mem_nil x)
    | e :: rest =>
      have hoff : ∀ f ∈ rest, f.offset = e.offset := by
        intro f hf
        rw [ho f (List.mem_cons_of_mem e hf), ho e (List.mem_cons_self e rest)]
      rw [mergeEvents_single_run e rest hoff] at hx
      rcases emitRun_mem _ _ _ x hx with ⟨g, hg, _, _, h3, _, _, h6, _⟩
      have hpg : p ∈ g.pitches := h3 p hp
      rcases pitchMaxDur_some_of_mem p (e :: rest) none g hg hpg with ⟨d, hd, _⟩
      have hd2 : pitchMaxDur (e :: rest) p = some d := hd
      refine ⟨?_, ?_, ?_⟩
      · rw [hd2]; exact Option.some_ne_none d
      · rw [h6]; exact le_maxDurOf _ _ p hp
      · intro hsingle
        rw [h6, hsingle]
        rfl

/-- Claim C7 amended witness: instantiation on the duration-1/duration-4
same-pitch example. -/
theorem claim_C7_witness :
    pitchMaxDur exSamePitch 60 ≠ none
    ∧ (pitchMaxDur exSamePitch 60).getD 0
        ≤ (MusicEvent.mk EventType.note [60] 4 0 1).duration
    ∧ ((MusicEvent.mk EventType.note [60] 4 0 1).pitches = [60] →
        (MusicEvent.mk EventType.note [60] 4 0 1).duration
          = (pitchMaxDur exSamePitch 60).getD 0) :=
  claim_C7.2 exSamePitch 0 (by decide) ⟨EventType.note, [60], 4, 0, 1⟩
    (by with_unfolding_all decide) 60 (by decide)

theorem emitRun_cons_ne (pmd : Nat → Option ℚ) (e : MusicEvent) (rest : List MusicEvent)
    (he : e.pitches ≠ []) :
    emitRun pmd (e :: rest) [] =
      MusicEvent.mk (if e.pitches.length = 1 then EventType.note else EventType.chord)
        e.pitches (maxDurOf pmd e.pitches) e.offset e.measure
      :: emitRun pmd rest e.pitches := by
  have hfe : e.pitches.filter (fun p => decide (p ∉ ([] : List Nat))) = e.pitches :=
    List.filter_eq_self.mpr fun a _ => decide_eq_true (List.not_mem_nil a)
  simp only [emitRun, hfe]
  rw [if_neg he]
  rfl

theorem emitRun_self :
    ∀ (pmd : Nat → Option ℚ) (O : List MusicEvent) (pr : List Nat),
    (∀ x ∈ O, x.pitches ≠ []
      ∧ (∀ p ∈ x.pitches, p ∉ pr)
      ∧ x.type = (if x.pitches.length = 1 then EventType.note else EventType.chord)
      ∧ maxDurOf pmd x.pitches = x.duration) →
    List.Pairwise (fun a b => ∀ p ∈ a.pitches, p ∉ b.pitches) O →
    emitRun pmd O pr = O := by
  intro pmd O
  induction O with
  | nil => intro pr _ _; rfl
  | cons x rest ih =>
    intro pr h hpw
    rcases h x (List.mem_cons_self x rest) with ⟨h1, h2, h3, h4⟩
    rcases List.pairwise_cons.mp hpw with ⟨hx, hpw2⟩
    have hfe : x.pitches.filter (fun p => decide (p ∉ pr)) = x.pitches :=
      List.filter_eq_self.mpr fun a ha => decide_eq_true (h2 a ha)
    simp only [emitRun, hfe]
    rw [if_neg h1]
    congr 1
    · cases x with
      | mk t ps d o m =>
        dsimp only at h3 h4 ⊢
        rw [h4, ← h3]
    · apply ih
      · intro z hz
        rcases h z (List.mem_cons_of_mem x hz) with ⟨g1, g2, g3, g4⟩
        refine ⟨g1, ?_, g3, g4⟩
        intro p hp
        rw [List.mem_append]
        rintro (hc | hc)
        · exact g2 p hp hc
        · exact hx z hz p hc hp
      · exact hpw2

/-- Claim C8: on any sorted sequence of well-formed events (non-empty pitch
lists, the data-model invariant), the merge is idempotent: merging the output
of the merge returns it unchanged. -/
theorem claim_C8 :
    ∀ events : List MusicEvent,
    List.Pairwise (fun a b : MusicEvent => a.offset ≤ b.offset) events →
    (∀ e ∈ events, e.pitches ≠ []) →
    mergeEvents (mergeEvents events) = mergeEvents events := by
  suffices h : ∀ (fuel : Nat) (l : List MusicEvent), l.length ≤ fuel →
      List.Pairwise (fun a b : MusicEvent => a.offset ≤ b.offset) l →
      (∀ e ∈ l, e.pitches ≠ []) →
      mergeEvents (mergeEvents l) = mergeEvents l by
    intro events hs hne
    exact h events.length events le_rfl hs hne
  intro fuel
  induction fuel with
  | zero =>
    intro l hl _ _
    have hnil : l = [] := List.length_eq_zero.mp (Nat.le_zero.mp hl)
    subst hnil
    rfl
  | succ n ih =>
    intro l hl hs hne
    match l with
    | [] => rfl
    | e :: rest =>
      rcases List.pairwise_cons.mp hs with ⟨hse, hsrest⟩
      have hdwlen : (rest.dropWhile fun x => decide (|x.offset - e.offset| < tol)).length
          ≤ n :=
        le_trans (List.dropWhile_sublist _).length_le (Nat.le_of_succ_le_succ hl)
      have hrepr := emitRun_cons_ne
        (pitchMaxDur (e :: rest.takeWhile fun x => decide (|x.offset - e.offset| < tol)))
        e (rest.takeWhile fun x => decide (|x.offset - e.offset| < tol))
        (hne e (List.mem_cons_self e rest))
      -- every event emitted from the run lies within tol of e.offset
      have hrunq : ∀ x ∈ emitRun
          (pitchMaxDur (e :: rest.takeWhile fun x => decide (|x.offset - e.offset| < tol)))
          (e :: rest.takeWhile fun x => decide (|x.offset - e.offset| < tol)) [],
          decide (|x.offset - e.offset| < tol) = true := by
        intro x hx
        rcases emitRun_mem _ _ _ x hx with ⟨g, hg, hxg, _⟩
        rw [hxg]
        rcases List.mem_cons.mp hg with rfl | hg2
        · rw [sub_self, abs_zero]; exact decide_eq_true tol_pos
        · have hq := List.mem_takeWhile_imp hg2
          exact hq
      -- every event of the merged remainder lies at least tol past e.offset
      have hO2q : ∀ b ∈ mergeEvents
          (rest.dropWhile fun x => decide (|x.offset - e.offset| < tol)),
          ¬ |b.offset - e.offset| < tol := by
        intro b hb
        rcases mergeEvents_mem _ b hb with ⟨f, hf, hbf⟩
        have hbound := dropWhile_bound e rest hsrest hse f hf
        intro hcon
        rw [hbf, abs_sub_lt_iff] at hcon
        linarith [hcon.1]
      have htake2 : (mergeEvents
          (rest.dropWhile fun x => decide (|x.offset - e.offset| < tol))).takeWhile
            (fun x => decide (|x.offset - e.offset| < tol)) = [] := by
        cases hmm : mergeEvents
            (rest.dropWhile fun x => decide (|x.offset - e.offset| < tol)) with
        | nil => rfl
        | cons b2 t2 =>
          rw [List.takeWhile_cons_of_neg]
          simp only [decide_eq_true_eq]
          exact hO2q b2 (by rw [hmm]; exact List.mem_cons_self b2 t2)
      have hdrop2 : (mergeEvents
          (rest.dropWhile fun x => decide (|x.offset - e.offset| < tol))).dropWhile
            (fun x => decide (|x.offset - e.offset| < tol))
          = mergeEvents (rest.dropWhile fun x => decide (|x.offset - e.offset| < tol)) := by
        cases hmm : mergeEvents
            (rest.dropWhile fun x => decide (|x.offset - e.offset| < tol)) with
        | nil => rfl
        | cons b2 t2 =>
          rw [List.dropWhile_cons_of_neg]
          simp only [decide_eq_true_eq]
          exact hO2q b2 (by rw [hmm]; exact List.mem_cons_self b2 t2)
      rw [mergeEvents_cons e rest, hrepr, List.cons_append, mergeEvents_cons]
      rw [show (MusicEvent.mk
          (if e.pitches.length = 1 then EventType.note else EventType.chord)
          e.pitches
          (maxDurOf (pitchMaxDur
            (e :: rest.takeWhile fun x => decide (|x.offset - e.offset| < tol)))
            e.pitches)
          e.offset e.measure).offset = e.offset from rfl]
      have htail : ∀ a ∈ emitRun
          (pitchMaxDur (e :: rest.takeWhile fun x => decide (|x.offset - e.offset| < tol)))
          (rest.takeWhile fun x => decide (|x.offset - e.offset| < tol)) e.pitches,
          decide (|a.offset - e.offset| < tol) = true := by
        intro a ha
        refine hrunq a ?_
        rw [hrepr]
        exact List.mem_cons_of_mem _ ha
      rw [List.takeWhile_append_of_pos htail, htake2, List.append_nil,
        List.dropWhile_append_of_pos htail, hdrop2]
      rw [ih _ hdwlen (List.Pairwise.sublist (List.dropWhile_sublist _) hsrest)
        (fun f hf => hne f (List.mem_cons_of_mem e ((List.dropWhile_sublist _).subset hf)))]
      -- second-pass re-emission of the first run is the identity
      have hself : emitRun
          (pitchMaxDur (emitRun
            (pitchMaxDur (e :: rest.takeWhile fun x => decide (|x.offset - e.offset| < tol)))
            (e :: rest.takeWhile fun x => decide (|x.offset - e.offset| < tol)) []))
          (emitRun
            (pitchMaxDur (e :: rest.takeWhile fun x => decide (|x.offset - e.offset| < tol)))
            (e :: rest.takeWhile fun x => decide (|x.offset - e.offset| < tol)) []) []
          = emitRun
            (pitchMaxDur (e :: rest.takeWhile fun x => decide (|x.offset - e.offset| < tol)))
            (e :: rest.takeWhile fun x => decide (|x.offset - e.offset| < tol)) [] := by
        refine emitRun_self _ _ _ ?_ (emitRun_pairwise _ _ _)
        intro x hx
        rcases emitRun_mem _ _ _ x hx with ⟨g, _, _, _, _, h4, h5, _, _⟩
        refine ⟨h4, fun p _ => List.not_mem_nil p, h5, ?_⟩
        refine maxDurOf_const _ x.pitches x.duration h4 ?_
        intro p hp
        rw [pitchMaxDur_unique p _ x (emitRun_pairwise _ _ _) hx hp]
        rfl
      rw [← hrepr, hself, hrepr, List.cons_append]

/-- Claim C8 witness: idempotence on the sorted sustain example sequence. -/
theorem claim_C8_witness :
    mergeEvents (mergeEvents exSustain) = mergeEvents exSustain :=
  claim_C8 exSustain (by decide) (by decide)

end Proofs
